import Mathlib

/-!
Verification development for the spherical-tensor data type exercised by the
two tutorial notebooks of this repository.  Both notebooks import the class
with `from spherical import SphericalTensor`; the module `spherical` itself is
not part of the visible sources, so the data model and the operations below
are modelled from the specification (the notebooks pin down the layout of the
coefficient array, the basis order, and the representation lists that are
used).  Coefficients are modelled as rationals; the external real-valued
numerical routines (spherical-harmonic evaluation, Clebsch-Gordan
coefficients, grid sampling) enter as explicit parameters.
-/

namespace SphTen

/-- Representation list: an ordered sequence of (multiplicity, degree) pairs,
e.g. `[(1, 0), (1, 1)]`.  Degree `L` contributes `2 * L + 1` coefficients. -/
abbrev RsList : Type := List (Nat × Nat)

/-- Total coefficient count of a representation list: the sum over the list of
multiplicity times `(2 * L + 1)`. -/
def rsCount (rs : RsList) : Nat :=
  (rs.map (fun p => p.1 * (2 * p.2 + 1))).sum

/-- Modelled from the spec: the `SphericalTensor` value type of the external
`spherical` module (imported by both notebooks, not present in the repository
sources): a signal of coefficients together with its representation list. -/
structure SphericalTensor where
  signal : List ℚ
  Rs : RsList
  deriving DecidableEq, Repr

/-- Modelled from the spec: the error taxonomy of section 7. -/
inductive SphError where
  | ShapeMismatch
  | IncompatibleRepresentation
  | InvalidDegree
  deriving DecidableEq, Repr

/-- Modelled from the spec: the literal constructor.  It checks that the
signal length equals the coefficient count implied by the representation list
and fails with `ShapeMismatch` otherwise. -/
def mkSphericalTensor (signal : List ℚ) (rs : RsList) :
    Except SphError SphericalTensor :=
  if signal.length = rsCount rs then .ok ⟨signal, rs⟩
  else .error .ShapeMismatch

/-- Modelled from the spec: addition of two spherical tensors.  It requires
identical representation lists and returns the element-wise sum of the two
signals over the shared representation list. -/
def add (a b : SphericalTensor) : Except SphError SphericalTensor :=
  if a.Rs = b.Rs then .ok ⟨List.zipWith (· + ·) a.signal b.signal, a.Rs⟩
  else .error .IncompatibleRepresentation

/-- Modelled from the spec: inner product of two spherical tensors.  It
requires identical representation lists and returns the element-wise dot
product of the two signals. -/
def dot (a b : SphericalTensor) : Except SphError ℚ :=
  if a.Rs = b.Rs then .ok ((List.zipWith (· * ·) a.signal b.signal).sum)
  else .error .IncompatibleRepresentation

/-- Absolute difference of two naturals, `|x - y|`. -/
def absDiff (x y : Nat) : Nat := max x y - min x y

/-- Degrees allowed by the triangle inequality for coupling degrees `L1` and
`L2`: all `Lo` with `|L1 - L2| ≤ Lo ≤ L1 + L2`, in ascending order. -/
def outDegrees (L1 L2 : Nat) : List Nat :=
  (List.range (L1 + L2 + 1)).filter (fun Lo => decide (absDiff L1 L2 ≤ Lo))

/-- All (multiplicity, output-degree) contributions of the tensor product of
two representation lists, in source pair order. -/
def pairContribs (a b : RsList) : List (Nat × Nat) :=
  a.flatMap (fun p => b.flatMap (fun q =>
    (outDegrees p.2 q.2).map (fun Lo => (p.1 * q.1, Lo))))

/-- Total multiplicity contributed to output degree `Lo`. -/
def multAt (cs : List (Nat × Nat)) (Lo : Nat) : Nat :=
  ((cs.filter (fun c => decide (c.2 = Lo))).map Prod.fst).sum

/-- Largest output degree appearing among the contributions. -/
def maxOutDegree (a b : RsList) : Nat :=
  ((pairContribs a b).map Prod.snd).foldr max 0

/-- Modelled from the spec: the representation list of the tensor (coupling)
product.  For every pair of input degrees the triangle-inequality degrees
contribute the product of the input multiplicities; repeated output degrees
arising from different pairs are merged (multiplicities summed) and the
resulting blocks are listed in ascending order of output degree. -/
def tensorRs (a b : RsList) : RsList :=
  (List.range (maxOutDegree a b + 1)).filterMap (fun Lo =>
    if multAt (pairContribs a b) Lo = 0 then none
    else some (multAt (pairContribs a b) Lo, Lo))

/-- Expansion of a representation list into one degree per unit block. -/
def expandRs (rs : RsList) : List Nat :=
  rs.flatMap (fun p => List.replicate p.1 p.2)

/-- Partition of a signal into its per-degree blocks, one block of length
`2 * L + 1` for each degree `L` of the expanded representation list. -/
def splitBlocks : List Nat → List ℚ → List (Nat × List ℚ)
  | [], _ => []
  | L :: Ls, s => (L, s.take (2 * L + 1)) :: splitBlocks Ls (s.drop (2 * L + 1))

/-- Modelled from the spec: the real-valued Clebsch-Gordan coupling
coefficients are external numerical data; they enter the model as a function
of the two input degrees, the output degree and the three basis indices. -/
abbrev CG : Type := Nat → Nat → Nat → Nat → Nat → Nat → ℚ

/-- Modelled from the spec: the normalization convention.  Coupling an `L = 0`
(scalar) block holding value 1 with any block reproduces that block unchanged,
on either side. -/
def ScalarNormalized (cg : CG) : Prop :=
  (∀ L j k, j < 2 * L + 1 → k < 2 * L + 1 →
    cg 0 L L 0 j k = if j = k then (1 : ℚ) else 0) ∧
  (∀ L i k, i < 2 * L + 1 → k < 2 * L + 1 →
    cg L 0 L i 0 k = if i = k then (1 : ℚ) else 0)

/-- A concrete Clebsch-Gordan model satisfying the scalar normalization: the
couplings involving a scalar factor are the identity and all others vanish. -/
def cgDelta : CG := fun L1 L2 Lo i j k =>
  if L1 = 0 then (if Lo = L2 ∧ i = 0 ∧ j = k then 1 else 0)
  else if L2 = 0 then (if Lo = L1 ∧ j = 0 ∧ i = k then 1 else 0)
  else 0

/-- Contraction of two blocks of degrees `L1` and `L2` against the coupling
coefficients for output degree `Lo`: the `2 * Lo + 1` output coefficients. -/
def contract (cg : CG) (L1 L2 Lo : Nat) (c1 c2 : List ℚ) : List ℚ :=
  (List.range (2 * Lo + 1)).map (fun k =>
    ((List.range (2 * L1 + 1)).map (fun i =>
      ((List.range (2 * L2 + 1)).map (fun j =>
        c1.getD i 0 * c2.getD j 0 * cg L1 L2 Lo i j k)).sum)).sum)

/-- All coupled output blocks of two block lists, in source pair order. -/
def coupleBlocks (cg : CG) (ba bb : List (Nat × List ℚ)) :
    List (Nat × List ℚ) :=
  ba.flatMap (fun x => bb.flatMap (fun y =>
    (outDegrees x.1 y.1).map (fun Lo => (Lo, contract cg x.1 y.1 Lo x.2 y.2))))

/-- Stable reordering of the coupled blocks, ascending by output degree and
keeping source pair order among equal degrees. -/
def sortBlocks (cs : List (Nat × List ℚ)) : List (Nat × List ℚ) :=
  cs.mergeSort (fun x y => decide (x.1 ≤ y.1))

/-- Modelled from the spec: the tensor (coupling) product of two spherical
tensors, the `@` operation of the notebooks.  Every pair of input blocks is
contracted against the coupling coefficients for every output degree allowed
by the triangle inequality; the output blocks are concatenated ascending by
output degree, and the output representation list is `tensorRs`. -/
def matmulST (cg : CG) (a b : SphericalTensor) : SphericalTensor :=
  ⟨(sortBlocks (coupleBlocks cg
      (splitBlocks (expandRs a.Rs) a.signal)
      (splitBlocks (expandRs b.Rs) b.signal))).flatMap Prod.snd,
   tensorRs a.Rs b.Rs⟩

/-- The scalar spherical tensor holding value 1: representation `[(1, 0)]`. -/
def scalarOne : SphericalTensor := ⟨[1], [(1, 0)]⟩

/-- A representation list in canonical form: degrees strictly increasing and
every multiplicity positive. -/
def canonical (rs : RsList) : Prop :=
  List.Pairwise (· < ·) (rs.map Prod.snd) ∧ ∀ p ∈ rs, 0 < p.1

/-- The canonical representation list `[(1, 0), (1, 1), ..., (1, Lmax)]`. -/
def rsUpTo (Lmax : Nat) : RsList :=
  (List.range (Lmax + 1)).map (fun L => (1, L))

/-- A 3D vector with rational coordinates. -/
abbrev Vec3 : Type := ℚ × ℚ × ℚ

/-- Modelled from the spec: `from_geometry`.  The real spherical-harmonic
basis evaluation (including normalization and magnitude scaling) is external
numerical code; it enters as a parameter `proj` giving, for degree `L`, basis
index `m` and an input vector, the contribution of that vector.  The signal is
the sum of the contributions across the input vectors, laid out degree by
degree, and the representation list is `[(1, 0), ..., (1, Lmax)]`. -/
def fromGeometry (proj : Nat → Nat → Vec3 → ℚ) (vectors : List Vec3)
    (Lmax : Nat) : SphericalTensor :=
  ⟨(List.range (Lmax + 1)).flatMap (fun L =>
      (List.range (2 * L + 1)).map (fun m => (vectors.map (proj L m)).sum)),
   rsUpTo Lmax⟩

/-- Modelled from the spec: a store of spherical-tensor instances, used to
express that operations allocate new instances and never mutate operands. -/
abbrev Store : Type := List SphericalTensor

/-- Addition as a store operation: reads the two operands, appends the result
as a fresh instance and returns its index. -/
def addOp (σ : Store) (i j : Nat) : Option (Store × Nat) :=
  (σ[i]?).bind (fun a => (σ[j]?).bind (fun b =>
    ((add a b).toOption).bind (fun t => some (σ ++ [t], σ.length))))

/-- Inner product as a store operation: reads the two operands and returns the
scalar result, leaving the store unchanged. -/
def dotOp (σ : Store) (i j : Nat) : Option (Store × ℚ) :=
  (σ[i]?).bind (fun a => (σ[j]?).bind (fun b =>
    ((dot a b).toOption).bind (fun q => some (σ, q))))

/-- Tensor product as a store operation: reads the two operands, appends the
coupled result as a fresh instance and returns its index. -/
def matmulOp (cg : CG) (σ : Store) (i j : Nat) : Option (Store × Nat) :=
  (σ[i]?).bind (fun a => (σ[j]?).bind (fun b =>
    some (σ ++ [matmulST cg a b], σ.length)))

/-- Modelled from the spec: `plot` is a pure sampling query; the external grid
evaluator enters as the parameter `sample`.  The store is left unchanged. -/
def plotOp (sample : SphericalTensor → Nat → List ℚ) (σ : Store) (i n : Nat) :
    Option (Store × List ℚ) :=
  (σ[i]?).map (fun t => (σ, sample t n))

/-- Offset of the degree-`L` block inside a signal with representation list
`[(1, 0), (1, 1), ...]`: the coefficients of the lower degrees come first. -/
def degreeOffset (L : Nat) : Nat :=
  ((List.range L).map (fun l => 2 * l + 1)).sum

/-- Offset of the `k`-th block of an expanded degree list inside the signal. -/
def offsetIn (Ls : List Nat) (k : Nat) : Nat :=
  ((Ls.take k).map (fun l => 2 * l + 1)).sum

/-- The real spherical-harmonic basis order printed by the notebook for the
first three degrees (`SH: 1 y z x xy yz * zx %` with `*` standing for
`2z^2-x^2-y^2` and `%` for `x^2-y^2`), matching the comment
`input[:, :, 8] = 0.1  # x^2 - y^2` of the tasks notebook. -/
def shLabels : List String :=
  ["1", "y", "z", "x", "xy", "yz", "2z^2-x^2-y^2", "zx", "x^2-y^2"]

end SphTen

namespace SphTen

theorem getD_zipWith_add (xs ys : List ℚ) (h : xs.length = ys.length) (i : Nat) :
    (List.zipWith (· + ·) xs ys).getD i 0 = xs.getD i 0 + ys.getD i 0 := by
  induction xs generalizing ys i with
  | nil =>
    cases ys with
    | nil => simp
    | cons y ys => simp at h
  | cons x xs ih =>
    cases ys with
    | nil => simp at h
    | cons y ys =>
      cases i with
      | zero => simp
      | succ i =>
        simp only [List.zipWith_cons_cons, List.getD_cons_succ]
        exact ih ys (by simpa using h) i

theorem zipWith_mul_self (xs : List ℚ) :
    List.zipWith (· * ·) xs xs = xs.map (fun x => x ^ 2) := by
  induction xs with
  | nil => simp
  | cons x xs ih => simp [ih, sq]

/-- C4: for tensors with identical representation lists, `+` returns a new
tensor with that shared representation list whose signal is the element-wise
sum of the two input signals. -/
theorem add_spec (a b : SphericalTensor) (hrs : a.Rs = b.Rs)
    (ha : a.signal.length = rsCount a.Rs) (hb : b.signal.length = rsCount b.Rs) :
    ∃ t : SphericalTensor, add a b = .ok t ∧ t.Rs = a.Rs ∧
      t.signal.length = a.signal.length ∧
      ∀ i, t.signal.getD i 0 = a.signal.getD i 0 + b.signal.getD i 0 := by
  have hlen : a.signal.length = b.signal.length := by rw [ha, hb, hrs]
  refine ⟨⟨List.zipWith (· + ·) a.signal b.signal, a.Rs⟩, ?_, rfl, ?_, ?_⟩
  · simp [add, hrs]
  · simp [List.length_zipWith, hlen]
  · exact getD_zipWith_add a.signal b.signal hlen

theorem add_spec_witness :
    ∃ t : SphericalTensor,
      add ⟨[1, 2, 3], [(1, 1)]⟩ ⟨[4, 5, 6], [(1, 1)]⟩ = .ok t ∧
      t.Rs = [(1, 1)] ∧ t.signal.length = 3 ∧
      ∀ i, t.signal.getD i 0 =
        (([1, 2, 3] : List ℚ)).getD i 0 + (([4, 5, 6] : List ℚ)).getD i 0 :=
  add_spec ⟨[1, 2, 3], [(1, 1)]⟩ ⟨[4, 5, 6], [(1, 1)]⟩ rfl (by decide) (by decide)

/-- C5: for tensors with identical representation lists, `*` returns the
element-wise dot product of the two signals; the pure-y and pure-x degree-1
signals are orthogonal, and `a * a` is the squared norm of the signal. -/
theorem dot_spec :
    (∀ a b : SphericalTensor, a.Rs = b.Rs →
      dot a b = .ok ((List.zipWith (· * ·) a.signal b.signal).sum)) ∧
    dot ⟨[1, 0, 0], [(1, 1)]⟩ ⟨[0, 0, 1], [(1, 1)]⟩ = .ok 0 ∧
    ∀ a : SphericalTensor,
      dot a a = .ok ((a.signal.map (fun x => x ^ 2)).sum) := by
  refine ⟨fun a b hrs => by simp [dot, hrs], by norm_num [dot], fun a => ?_⟩
  simp [dot, zipWith_mul_self, pow_two]

theorem dot_spec_witness :
    dot ⟨[1, 2], [(2, 0)]⟩ ⟨[3, 4], [(2, 0)]⟩ =
      .ok ((List.zipWith (· * ·) ([1, 2] : List ℚ) ([3, 4] : List ℚ)).sum) :=
  dot_spec.1 ⟨[1, 2], [(2, 0)]⟩ ⟨[3, 4], [(2, 0)]⟩ rfl

/-- C6: constructing a spherical tensor from a matching-length signal and a
representation list and reading back the signal and representation list
returns exactly the inputs. -/
theorem construct_roundtrip (s : List ℚ) (rs : RsList)
    (h : s.length = rsCount rs) :
    ∃ t : SphericalTensor,
      mkSphericalTensor s rs = .ok t ∧ t.signal = s ∧ t.Rs = rs :=
  ⟨⟨s, rs⟩, by simp [mkSphericalTensor, h], rfl, rfl⟩

theorem construct_roundtrip_witness :
    ∃ t : SphericalTensor,
      mkSphericalTensor [1, 2, 3] [(1, 1)] = .ok t ∧
      t.signal = [1, 2, 3] ∧ t.Rs = [(1, 1)] :=
  construct_roundtrip [1, 2, 3] [(1, 1)] (by decide)

/-- C8: the literal constructor fails with `ShapeMismatch` exactly when the
signal length differs from the coefficient count implied by the
representation list, addition and inner product fail with
`IncompatibleRepresentation` exactly when the operands' representation lists
differ, and in each case failure produces no value while the complementary
case fully succeeds. -/
theorem error_handling :
    (∀ (s : List ℚ) (rs : RsList),
      (mkSphericalTensor s rs = .error .ShapeMismatch ↔
        s.length ≠ rsCount rs) ∧
      (s.length = rsCount rs ↔ ∃ t, mkSphericalTensor s rs = .ok t)) ∧
    (∀ a b : SphericalTensor,
      (add a b = .error .IncompatibleRepresentation ↔ a.Rs ≠ b.Rs) ∧
      (a.Rs = b.Rs ↔ ∃ t, add a b = .ok t)) ∧
    (∀ a b : SphericalTensor,
      (dot a b = .error .IncompatibleRepresentation ↔ a.Rs ≠ b.Rs) ∧
      (a.Rs = b.Rs ↔ ∃ q, dot a b = .ok q)) := by
  refine ⟨fun s rs => ⟨?_, ?_⟩, fun a b => ⟨?_, ?_⟩, fun a b => ⟨?_, ?_⟩⟩
  · by_cases h : s.length = rsCount rs <;> simp [mkSphericalTensor, h]
  · by_cases h : s.length = rsCount rs <;> simp [mkSphericalTensor, h]
  · by_cases h : a.Rs = b.Rs <;> simp [add, h]
  · by_cases h : a.Rs = b.Rs <;> simp [add, h]
  · by_cases h : a.Rs = b.Rs <;> simp [dot, h]
  · by_cases h : a.Rs = b.Rs <;> simp [dot, h]

theorem error_handling_witness :
    mkSphericalTensor [1, 2] [(1, 1)] = .error .ShapeMismatch ∧
    add ⟨[1], [(1, 0)]⟩ ⟨[1, 0, 0], [(1, 1)]⟩ =
      .error .IncompatibleRepresentation :=
  ⟨((error_handling.1 [1, 2] [(1, 1)]).1).mpr (by decide),
   ((error_handling.2.1 ⟨[1], [(1, 0)]⟩ ⟨[1, 0, 0], [(1, 1)]⟩).1).mpr
     (by decide)⟩

end SphTen

namespace SphTen

theorem sum_odd_range (n : Nat) :
    ((List.range n).map (fun L => 2 * L + 1)).sum = n ^ 2 := by
  induction n with
  | zero => simp
  | succ n ih =>
    rw [List.range_succ]
    simp [ih]
    ring

theorem rsCount_rsUpTo (Lmax : Nat) :
    rsCount (rsUpTo Lmax) = (Lmax + 1) ^ 2 := by
  unfold rsCount rsUpTo
  rw [List.map_map]
  have hfe : ((fun p : Nat × Nat => p.1 * (2 * p.2 + 1)) ∘ fun L => (1, L)) =
      fun L => 2 * L + 1 := by
    funext L
    simp
  rw [hfe]
  exact sum_odd_range (Lmax + 1)

/-- C7: `from_geometry` returns a tensor whose representation list is exactly
`[(1, 0), (1, 1), ..., (1, Lmax)]` and whose signal length equals the total
coefficient count of that list, namely `(Lmax + 1) ^ 2`. -/
theorem fromGeometry_spec (proj : Nat → Nat → Vec3 → ℚ) (vectors : List Vec3)
    (Lmax : Nat) (hne : vectors ≠ []) :
    (fromGeometry proj vectors Lmax).Rs =
      (List.range (Lmax + 1)).map (fun L => (1, L)) ∧
    (fromGeometry proj vectors Lmax).signal.length =
      rsCount ((fromGeometry proj vectors Lmax).Rs) ∧
    rsCount ((fromGeometry proj vectors Lmax).Rs) = (Lmax + 1) ^ 2 := by
  have hcount : rsCount ((fromGeometry proj vectors Lmax).Rs) =
      (Lmax + 1) ^ 2 := rsCount_rsUpTo Lmax
  refine ⟨rfl, ?_, hcount⟩
  show ((List.range (Lmax + 1)).flatMap _).length = _
  rw [List.length_flatMap, hcount]
  have hlen : ∀ L : Nat,
      (List.length ∘ fun L => (List.range (2 * L + 1)).map
        (fun m => (vectors.map (proj L m)).sum)) L = 2 * L + 1 := by
    intro L
    simp
  rw [List.map_congr_left (fun L _ => hlen L)]
  exact sum_odd_range (Lmax + 1)

theorem fromGeometry_spec_witness :
    (fromGeometry (fun _ _ _ => 0) [(1, 0, 0)] 2).Rs =
      (List.range 3).map (fun L => (1, L)) ∧
    (fromGeometry (fun _ _ _ => 0) [(1, 0, 0)] 2).signal.length =
      rsCount ((fromGeometry (fun _ _ _ => 0) [(1, 0, 0)] 2).Rs) ∧
    rsCount ((fromGeometry (fun _ _ _ => 0) [(1, 0, 0)] 2).Rs) = 9 :=
  fromGeometry_spec (fun _ _ _ => 0) [(1, 0, 0)] 2 (by decide)

theorem splitBlocks_getElem (Ls : List Nat) (s : List ℚ) (k : Nat) :
    (splitBlocks Ls s)[k]? =
      (Ls[k]?).map (fun L => (L, (s.drop (offsetIn Ls k)).take (2 * L + 1))) := by
  induction Ls generalizing s k with
  | nil => simp [splitBlocks]
  | cons L Ls ih =>
    cases k with
    | zero => simp [splitBlocks, offsetIn]
    | succ k =>
      simp only [splitBlocks, List.getElem?_cons_succ, ih]
      have hoff : offsetIn (L :: Ls) (k + 1) = (2 * L + 1) + offsetIn Ls k := by
        simp [offsetIn, List.take_succ_cons]
      rw [hoff]
      cases h : Ls[k]? with
      | none => simp
      | some L2 => simp [List.drop_drop]

theorem expandRs_rsUpTo (Lmax : Nat) :
    expandRs (rsUpTo Lmax) = List.range (Lmax + 1) := by
  unfold expandRs rsUpTo
  rw [List.flatMap_map]
  have hfe : ∀ L ∈ List.range (Lmax + 1),
      (fun a => List.replicate ((1 : Nat), a).1 ((1 : Nat), a).2) L = [L] := by
    intro L hL
    rfl
  rw [List.flatMap_congr hfe]
  exact List.flatMap_singleton' (List.range (Lmax + 1))

theorem offsetIn_range (Lmax L : Nat) (h : L ≤ Lmax) :
    offsetIn (List.range (Lmax + 1)) L = L ^ 2 := by
  unfold offsetIn
  rw [List.take_range, Nat.min_eq_left (by omega)]
  exact sum_odd_range L

/-- C10: in a tensor with representation list `[(1, 0), ..., (1, Lmax)]` the
degree-`L` block starts at flat index `L ^ 2` and holds the next `2 * L + 1`
coefficients (so it covers indices `L ^ 2` through `L ^ 2 + 2 * L`), and the
`x^2 - y^2` spherical-harmonic component is the last element of the `L = 2`
block, at flat index `8`. -/
theorem block_layout :
    (∀ L : Nat, degreeOffset L = L ^ 2) ∧
    (∀ (Lmax : Nat) (s : List ℚ) (L : Nat), L ≤ Lmax →
      (splitBlocks (expandRs (rsUpTo Lmax)) s)[L]? =
        some (L, (s.drop (L ^ 2)).take (2 * L + 1))) ∧
    degreeOffset 2 = 4 ∧ degreeOffset 2 + (2 * 2 + 1) - 1 = 8 ∧
    shLabels[8]? = some "x^2-y^2" ∧ shLabels.length = 9 := by
  refine ⟨fun L => sum_odd_range L, ?_, by decide, by decide, by rfl, by rfl⟩
  intro Lmax s L hL
  rw [expandRs_rsUpTo, splitBlocks_getElem, offsetIn_range Lmax L hL,
    List.getElem?_range (by omega)]
  rfl

theorem block_layout_witness :
    (splitBlocks (expandRs (rsUpTo 2))
        [0, 1, 2, 3, 4, 5, 6, 7, 8])[2]? =
      some (2, ((([0, 1, 2, 3, 4, 5, 6, 7, 8] : List ℚ)).drop (2 ^ 2)).take
        (2 * 2 + 1)) :=
  block_layout.2.1 2 [0, 1, 2, 3, 4, 5, 6, 7, 8] 2 (by decide)

/-- C9: operations never mutate their operands.  In the store model, addition
and the tensor product read their operands, leave every existing instance
unchanged and append the result as a fresh instance, while the inner product
and `plot` leave the store exactly as it was. -/
theorem immutability (sample : SphericalTensor → Nat → List ℚ) (cg : CG)
    (σ : Store) :
    (∀ i j σ2 r, addOp σ i j = some (σ2, r) →
      (∀ k, k < σ.length → σ2[k]? = σ[k]?) ∧ r = σ.length ∧
        σ2.length = σ.length + 1) ∧
    (∀ i j σ2 r, matmulOp cg σ i j = some (σ2, r) →
      (∀ k, k < σ.length → σ2[k]? = σ[k]?) ∧ r = σ.length ∧
        σ2.length = σ.length + 1) ∧
    (∀ i j σ2 q, dotOp σ i j = some (σ2, q) → σ2 = σ) ∧
    (∀ i n σ2 out, plotOp sample σ i n = some (σ2, out) → σ2 = σ) := by
  have happend : ∀ (t : SphericalTensor) (k : Nat), k < σ.length →
      (σ ++ [t])[k]? = σ[k]? := by
    intro t k hk
    rw [List.getElem?_append]
    simp [hk]
  refine ⟨fun i j σ2 r h => ?_, fun i j σ2 r h => ?_,
    fun i j σ2 q h => ?_, fun i n σ2 out h => ?_⟩
  · simp only [addOp, Option.bind_eq_some, Option.some.injEq,
      Prod.mk.injEq] at h
    obtain ⟨a, hi, b, hj, t, ht, h1, h2⟩ := h
    subst h1
    subst h2
    exact ⟨happend t, rfl, by simp⟩
  · simp only [matmulOp, Option.bind_eq_some, Option.some.injEq,
      Prod.mk.injEq] at h
    obtain ⟨a, hi, b, hj, h1, h2⟩ := h
    subst h1
    subst h2
    exact ⟨happend _, rfl, by simp⟩
  · simp only [dotOp, Option.bind_eq_some, Option.some.injEq,
      Prod.mk.injEq] at h
    obtain ⟨a, hi, b, hj, q2, hq, h1, h2⟩ := h
    exact h1.symm
  · simp only [plotOp, Option.map_eq_some'] at h
    obtain ⟨t, hi, h1⟩ := h
    exact congrArg Prod.fst h1.symm

theorem immutability_witness :
    (∀ k, k < ([(⟨[], []⟩ : SphericalTensor)] : Store).length →
      ([⟨[], []⟩, ⟨[], []⟩] : Store)[k]? =
        ([(⟨[], []⟩ : SphericalTensor)] : Store)[k]?) ∧
    (1 : Nat) = ([(⟨[], []⟩ : SphericalTensor)] : Store).length ∧
    ([⟨[], []⟩, ⟨[], []⟩] : Store).length =
      ([(⟨[], []⟩ : SphericalTensor)] : Store).length + 1 :=
  (immutability (fun _ _ => []) (fun _ _ _ _ _ _ => 0) [⟨[], []⟩]).1 0 0
    [⟨[], []⟩, ⟨[], []⟩] 1 (by decide)

end SphTen

namespace SphTen

theorem le_foldr_max (l : List Nat) (x : Nat) (hx : x ∈ l) :
    x ≤ l.foldr max 0 := by
  induction l with
  | nil => simp at hx
  | cons a l ih =>
    rcases List.mem_cons.mp hx with h | h
    · subst h
      exact le_max_left _ _
    · exact le_trans (ih h) (le_max_right _ _)

theorem mem_le_sum (l : List Nat) (x : Nat) (hx : x ∈ l) : x ≤ l.sum := by
  induction l with
  | nil => simp at hx
  | cons a l ih =>
    rcases List.mem_cons.mp hx with h | h
    · subst h
      simp
    · calc x ≤ l.sum := ih h
        _ ≤ a + l.sum := Nat.le_add_left _ _
        _ = (a :: l).sum := (List.sum_cons).symm

theorem mem_outDegrees (L1 L2 Lo : Nat) :
    Lo ∈ outDegrees L1 L2 ↔ absDiff L1 L2 ≤ Lo ∧ Lo ≤ L1 + L2 := by
  constructor
  · intro h
    obtain ⟨hin, hp⟩ := List.mem_filter.mp h
    exact ⟨of_decide_eq_true hp, Nat.lt_succ_iff.mp (List.mem_range.mp hin)⟩
  · rintro ⟨h1, h2⟩
    exact List.mem_filter.mpr
      ⟨List.mem_range.mpr (Nat.lt_succ_iff.mpr h2), decide_eq_true h1⟩

theorem mem_pairContribs (a b : RsList) (m Lo : Nat) :
    (m, Lo) ∈ pairContribs a b ↔
      ∃ p ∈ a, ∃ q ∈ b, m = p.1 * q.1 ∧ Lo ∈ outDegrees p.2 q.2 := by
  unfold pairContribs
  rw [List.mem_flatMap]
  constructor
  · rintro ⟨p, hp, hmem⟩
    rw [List.mem_flatMap] at hmem
    obtain ⟨q, hq, hmem⟩ := hmem
    rw [List.mem_map] at hmem
    obtain ⟨Lo2, hLo2, heq⟩ := hmem
    obtain ⟨h1, h2⟩ := Prod.mk.injEq .. ▸ heq
    exact ⟨p, hp, q, hq, h1.symm, h2 ▸ hLo2⟩
  · rintro ⟨p, hp, q, hq, rfl, hmem⟩
    exact ⟨p, hp, List.mem_flatMap.mpr
      ⟨q, hq, List.mem_map.mpr ⟨Lo, hmem, rfl⟩⟩⟩

theorem multAt_ne_zero (cs : List (Nat × Nat)) (Lo : Nat) :
    multAt cs Lo ≠ 0 ↔ ∃ p ∈ cs, p.2 = Lo ∧ p.1 ≠ 0 := by
  constructor
  · intro h
    by_contra hc
    push_neg at hc
    apply h
    apply List.sum_eq_zero
    intro x hx
    rw [List.mem_map] at hx
    obtain ⟨p, hp, rfl⟩ := hx
    obtain ⟨hpc, hdec⟩ := List.mem_filter.mp hp
    exact hc p hpc (of_decide_eq_true hdec)
  · rintro ⟨p, hp, hLo, hm⟩ h0
    apply hm
    have hmem : p.1 ∈ (cs.filter (fun c => decide (c.2 = Lo))).map Prod.fst :=
      List.mem_map_of_mem _ (List.mem_filter.mpr ⟨hp, decide_eq_true hLo⟩)
    have hle := mem_le_sum _ _ hmem
    unfold multAt at h0
    omega

theorem mem_tensorRs (a b : RsList) (Lo : Nat) :
    (∃ m, (m, Lo) ∈ tensorRs a b) ↔
      Lo ≤ maxOutDegree a b ∧ multAt (pairContribs a b) Lo ≠ 0 := by
  constructor
  · rintro ⟨m, hm⟩
    unfold tensorRs at hm
    rw [List.mem_filterMap] at hm
    obtain ⟨x, hx, hfx⟩ := hm
    by_cases h0 : multAt (pairContribs a b) x = 0
    · rw [if_pos h0] at hfx
      exact absurd hfx (by simp)
    · rw [if_neg h0] at hfx
      have hpair : (multAt (pairContribs a b) x, x) = (m, Lo) :=
        Option.some.injEq .. ▸ hfx
      have hxLo : x = Lo := congrArg Prod.snd hpair
      subst hxLo
      exact ⟨Nat.lt_succ_iff.mp (List.mem_range.mp hx), h0⟩
  · rintro ⟨hle, h0⟩
    refine ⟨multAt (pairContribs a b) Lo, ?_⟩
    unfold tensorRs
    rw [List.mem_filterMap]
    exact ⟨Lo, List.mem_range.mpr (Nat.lt_succ_iff.mpr hle), by rw [if_neg h0]⟩

/-- C2: coupling two degree-1 tensors with the tensor product produces exactly
the three blocks of degrees 0, 1 and 2, each with multiplicity 1 and no
others; in general the output representation list contains a block for an
output degree exactly when some pair of input degrees satisfies the triangle
inequality for it. -/
theorem tensor_degree_rule :
    tensorRs [(1, 1)] [(1, 1)] = [(1, 0), (1, 1), (1, 2)] ∧
    ∀ (a b : RsList), (∀ p ∈ a, 0 < p.1) → (∀ p ∈ b, 0 < p.1) →
      ∀ Lo, (∃ m, (m, Lo) ∈ tensorRs a b) ↔
        ∃ p ∈ a, ∃ q ∈ b, absDiff p.2 q.2 ≤ Lo ∧ Lo ≤ p.2 + q.2 := by
  refine ⟨by decide, fun a b ha hb Lo => ?_⟩
  rw [mem_tensorRs]
  constructor
  · rintro ⟨hle, h0⟩
    obtain ⟨⟨pm, pd⟩, hp, hpLo, hpm⟩ := (multAt_ne_zero _ _).mp h0
    obtain ⟨pa, hpa, pb, hpb, hm, hmem⟩ :=
      (mem_pairContribs a b pm pd).mp hp
    simp only at hpLo
    rw [hpLo] at hmem
    obtain ⟨h1, h2⟩ := (mem_outDegrees _ _ _).mp hmem
    exact ⟨pa, hpa, pb, hpb, h1, h2⟩
  · rintro ⟨pa, hpa, pb, hpb, h1, h2⟩
    have hmem : (pa.1 * pb.1, Lo) ∈ pairContribs a b :=
      (mem_pairContribs a b _ _).mpr
        ⟨pa, hpa, pb, hpb, rfl, (mem_outDegrees _ _ _).mpr ⟨h1, h2⟩⟩
    have hmul : pa.1 * pb.1 ≠ 0 :=
      Nat.mul_ne_zero (Nat.pos_iff_ne_zero.mp (ha pa hpa))
        (Nat.pos_iff_ne_zero.mp (hb pb hpb))
    refine ⟨?_, (multAt_ne_zero _ _).mpr ⟨(pa.1 * pb.1, Lo), hmem, rfl, hmul⟩⟩
    exact le_foldr_max _ _ (List.mem_map_of_mem Prod.snd hmem)

theorem tensor_degree_rule_witness :
    ∃ m, (m, 2) ∈ tensorRs [(1, 1)] [(1, 1)] :=
  (tensor_degree_rule.2 [(1, 1)] [(1, 1)] (by decide) (by decide) 2).mpr
    ⟨(1, 1), by decide, (1, 1), by decide, by decide, by decide⟩

end SphTen

namespace SphTen

theorem sum_range_delta (c : List ℚ) (n k : Nat) (hk : k < n) :
    ((List.range n).map (fun i =>
      c.getD i 0 * (if i = k then (1 : ℚ) else 0))).sum = c.getD k 0 := by
  induction n with
  | zero => omega
  | succ n ih =>
    rw [List.range_succ, List.map_append, List.sum_append]
    by_cases hkn : k = n
    · subst hkn
      have hzero : ((List.range k).map (fun i =>
          c.getD i 0 * (if i = k then (1 : ℚ) else 0))).sum = 0 := by
        apply List.sum_eq_zero
        intro x hx
        rw [List.mem_map] at hx
        obtain ⟨i, hi, rfl⟩ := hx
        have : i ≠ k := by
          have := List.mem_range.mp hi
          omega
        simp [this]
      rw [hzero]
      simp
    · have hk2 : k < n := by omega
      rw [ih hk2]
      simp [Ne.symm hkn]

theorem getD_map_range (c : List ℚ) (n : Nat) (h : c.length = n) :
    (List.range n).map (fun k => c.getD k 0) = c := by
  induction c generalizing n with
  | nil =>
    subst h
    simp
  | cons x c ih =>
    subst h
    rw [List.length_cons, List.range_succ_eq_map, List.map_cons, List.map_map]
    have : ((fun k => (x :: c).getD k 0) ∘ Nat.succ) = fun k => c.getD k 0 := by
      funext k
      simp
    rw [this, ih c.length rfl]
    simp

theorem contract_scalar_right (cg : CG)
    (h : ∀ L i k, i < 2 * L + 1 → k < 2 * L + 1 →
      cg L 0 L i 0 k = if i = k then (1 : ℚ) else 0)
    (L : Nat) (c : List ℚ) (hc : c.length = 2 * L + 1) :
    contract cg L 0 L c [1] = c := by
  unfold contract
  have houter : ∀ k ∈ List.range (2 * L + 1),
      ((List.range (2 * L + 1)).map (fun i =>
        ((List.range (2 * 0 + 1)).map (fun j =>
          c.getD i 0 * ([(1 : ℚ)]).getD j 0 * cg L 0 L i j k)).sum)).sum
      = c.getD k 0 := by
    intro k hk
    have hk2 : k < 2 * L + 1 := List.mem_range.mp hk
    have hinner : ∀ i ∈ List.range (2 * L + 1),
        ((List.range (2 * 0 + 1)).map (fun j =>
          c.getD i 0 * ([(1 : ℚ)]).getD j 0 * cg L 0 L i j k)).sum
        = c.getD i 0 * (if i = k then (1 : ℚ) else 0) := by
      intro i hi
      have hi2 : i < 2 * L + 1 := List.mem_range.mp hi
      show ((List.range 1).map (fun j =>
        c.getD i 0 * ([(1 : ℚ)]).getD j 0 * cg L 0 L i j k)).sum = _
      have hr1 : List.range 1 = [0] := rfl
      rw [hr1]
      simp [h L i k hi2 hk2]
    rw [List.map_congr_left hinner]
    exact sum_range_delta c (2 * L + 1) k hk2
  rw [List.map_congr_left houter]
  exact getD_map_range c (2 * L + 1) hc

theorem absDiff_zero_right (L : Nat) : absDiff L 0 = L := by
  unfold absDiff
  omega

theorem outDegrees_zero_right (L : Nat) : outDegrees L 0 = [L] := by
  unfold outDegrees
  have he : L + 0 + 1 = L + 1 := rfl
  rw [he, List.range_succ, List.filter_append]
  have h1 : (List.range L).filter (fun Lo => decide (absDiff L 0 ≤ Lo)) = [] := by
    rw [List.filter_eq_nil_iff]
    intro a ha
    have := List.mem_range.mp ha
    rw [absDiff_zero_right]
    simp
    omega
  have h2 : ([L]).filter (fun Lo => decide (absDiff L 0 ≤ Lo)) = [L] := by
    rw [absDiff_zero_right]
    simp
  rw [h1, h2, List.nil_append]

theorem splitBlocks_map_fst (Ls : List Nat) (s : List ℚ) :
    (splitBlocks Ls s).map Prod.fst = Ls := by
  induction Ls generalizing s with
  | nil => rfl
  | cons L Ls ih => simp [splitBlocks, ih]

theorem splitBlocks_flatMap_snd (Ls : List Nat) (s : List ℚ)
    (h : s.length = (Ls.map (fun l => 2 * l + 1)).sum) :
    (splitBlocks Ls s).flatMap Prod.snd = s := by
  induction Ls generalizing s with
  | nil =>
    simp at h
    subst h
    rfl
  | cons L Ls ih =>
    simp only [splitBlocks, List.flatMap_cons]
    rw [ih (s.drop (2 * L + 1)) (by simp at h ⊢; omega)]
    exact List.take_append_drop _ _

theorem splitBlocks_block_length (Ls : List Nat) (s : List ℚ)
    (h : s.length = (Ls.map (fun l => 2 * l + 1)).sum) :
    ∀ b ∈ splitBlocks Ls s, b.2.length = 2 * b.1 + 1 := by
  induction Ls generalizing s with
  | nil => simp [splitBlocks]
  | cons L Ls ih =>
    intro b hb
    rcases List.mem_cons.mp hb with hb | hb
    · subst hb
      simp only [List.length_take]
      simp at h
      omega
    · exact ih (s.drop (2 * L + 1)) (by simp at h ⊢; omega) b hb

theorem rsCount_expand (rs : RsList) :
    ((expandRs rs).map (fun l => 2 * l + 1)).sum = rsCount rs := by
  induction rs with
  | nil => rfl
  | cons p rs ih =>
    unfold expandRs rsCount at *
    rw [List.flatMap_cons, List.map_append, List.sum_append, ih]
    simp [List.map_replicate, List.sum_replicate, smul_eq_mul]

theorem mem_expandRs_exists (rs : RsList) (x : Nat) (hx : x ∈ expandRs rs) :
    ∃ q ∈ rs, x = q.2 := by
  unfold expandRs at hx
  rw [List.mem_flatMap] at hx
  obtain ⟨q, hq, hmem⟩ := hx
  exact ⟨q, hq, (List.eq_of_mem_replicate hmem)⟩

theorem expandRs_sorted (rs : RsList)
    (h : List.Pairwise (· < ·) (rs.map Prod.snd)) :
    List.Pairwise (· ≤ ·) (expandRs rs) := by
  induction rs with
  | nil => exact List.Pairwise.nil
  | cons p rs ih =>
    rw [List.map_cons, List.pairwise_cons] at h
    obtain ⟨hhead, htail⟩ := h
    show List.Pairwise (· ≤ ·) (List.replicate p.1 p.2 ++ expandRs rs)
    rw [List.pairwise_append]
    refine ⟨List.pairwise_replicate.mpr (Or.inr le_rfl), ih htail, ?_⟩
    intro a ha b hb
    rw [List.eq_of_mem_replicate ha]
    obtain ⟨q, hq, rfl⟩ := mem_expandRs_exists rs b hb
    exact le_of_lt (hhead q.2 (List.mem_map_of_mem Prod.snd hq))

theorem sortBlocks_of_sorted (cs : List (Nat × List ℚ))
    (h : List.Pairwise (fun x y => x.1 ≤ y.1) cs) :
    sortBlocks cs = cs := by
  unfold sortBlocks
  exact List.mergeSort_of_sorted (h.imp (fun hab => decide_eq_true hab))

theorem coupleBlocks_scalar_right (cg : CG) (ba : List (Nat × List ℚ)) :
    coupleBlocks cg ba [(0, [(1 : ℚ)])] =
      ba.map (fun x => (x.1, contract cg x.1 0 x.1 x.2 [1])) := by
  unfold coupleBlocks
  have hstep : ∀ x : Nat × List ℚ,
      ([((0 : Nat), [(1 : ℚ)])]).flatMap (fun y =>
        (outDegrees x.1 y.1).map
          (fun Lo => (Lo, contract cg x.1 y.1 Lo x.2 y.2)))
      = [(x.1, contract cg x.1 0 x.1 x.2 [1])] := by
    intro x
    rw [List.flatMap_cons, List.flatMap_nil, List.append_nil]
    show (outDegrees x.1 0).map _ = _
    rw [outDegrees_zero_right]
    rfl
  rw [List.flatMap_congr (fun x _ => hstep x)]
  induction ba with
  | nil => rfl
  | cons x ba ih =>
    rw [List.flatMap_cons, ih]
    rfl

end SphTen

namespace SphTen

theorem tensorRs_reconstruct (n : Nat) :
    ∀ cs : List (Nat × Nat),
      List.Pairwise (· < ·) (cs.map Prod.snd) →
      (∀ p ∈ cs, 0 < p.1) →
      (∀ p ∈ cs, p.2 < n) →
      (List.range n).filterMap (fun Lo =>
        if multAt cs Lo = 0 then none else some (multAt cs Lo, Lo)) = cs := by
  induction n with
  | zero =>
    intro cs hchain hpos hbound
    cases cs with
    | nil => rfl
    | cons p cs => exact absurd (hbound p (List.mem_cons_self _ _)) (by omega)
  | succ n ih =>
    intro cs hchain hpos hbound
    rcases List.eq_nil_or_concat cs with rfl | ⟨cs2, p, rfl⟩
    · have hz : ∀ Lo : Nat, multAt ([] : List (Nat × Nat)) Lo = 0 :=
        fun _ => rfl
      simp [hz]
    · rw [List.concat_eq_append] at hchain hpos hbound ⊢
      have hchain2 := hchain
      rw [show (cs2 ++ [p]).map Prod.snd = cs2.map Prod.snd ++ [p.2] by simp,
        List.pairwise_append] at hchain2
      obtain ⟨hc2, _, hcross⟩ := hchain2
      have hlt : ∀ q ∈ cs2, q.2 < p.2 := fun q hq =>
        hcross q.2 (List.mem_map_of_mem Prod.snd hq) p.2 (by simp)
      rw [List.range_succ, List.filterMap_append]
      by_cases hp2 : p.2 = n
      · have hfiltn : (cs2 ++ [p]).filter (fun c => decide (c.2 = n)) = [p] := by
          rw [List.filter_append]
          have h1 : cs2.filter (fun c => decide (c.2 = n)) = [] := by
            rw [List.filter_eq_nil_iff]
            intro q hq
            have := hlt q hq
            simp only [decide_eq_true_eq]
            omega
          have h2 : ([p]).filter (fun c => decide (c.2 = n)) = [p] := by
            simp [hp2]
          rw [h1, h2, List.nil_append]
        have hmultn : multAt (cs2 ++ [p]) n = p.1 := by
          unfold multAt
          rw [hfiltn]
          simp
        have hmlt : ∀ Lo, Lo < n → multAt (cs2 ++ [p]) Lo = multAt cs2 Lo := by
          intro Lo hLo
          unfold multAt
          rw [List.filter_append]
          have hp0 : ([p]).filter (fun c => decide (c.2 = Lo)) = [] := by
            simp only [List.filter_cons, List.filter_nil, decide_eq_true_eq]
            rw [if_neg (by omega)]
          rw [hp0, List.append_nil]
        have hcong : ∀ Lo ∈ List.range n,
            (if multAt (cs2 ++ [p]) Lo = 0 then none
              else some (multAt (cs2 ++ [p]) Lo, Lo)) =
            (if multAt cs2 Lo = 0 then none
              else some (multAt cs2 Lo, Lo)) := by
          intro Lo hLo
          rw [hmlt Lo (List.mem_range.mp hLo)]
        have hrange := List.filterMap_congr hcong
        have hrec := ih cs2 hc2
          (fun q hq => hpos q (List.mem_append_left _ hq))
          (fun q hq => by have := hlt q hq; omega)
        have hppos : p.1 ≠ 0 :=
          Nat.pos_iff_ne_zero.mp (hpos p (List.mem_append_right _ (by simp)))
        have hlast : ([n] : List Nat).filterMap (fun Lo =>
            if multAt (cs2 ++ [p]) Lo = 0 then none
            else some (multAt (cs2 ++ [p]) Lo, Lo)) = [p] := by
          show List.filterMap _ (n :: []) = [p]
          rw [List.filterMap_cons, List.filterMap_nil]
          rw [hmultn, if_neg hppos]
          have hpn : (p.1, n) = p := by
            rw [← hp2]
          rw [hpn]
        rw [hrange, hrec, hlast]
      · have hplt : p.2 < n := by
          have := hbound p (List.mem_append_right _ (by simp))
          omega
        have hall : ∀ q ∈ cs2 ++ [p], q.2 < n := by
          intro q hq
          rcases List.mem_append.mp hq with hq | hq
          · have := hlt q hq
            omega
          · have hqp : q = p := by simpa using hq
            rw [hqp]
            exact hplt
        have hmultn0 : multAt (cs2 ++ [p]) n = 0 := by
          unfold multAt
          have hfilt : (cs2 ++ [p]).filter (fun c => decide (c.2 = n)) = [] := by
            rw [List.filter_eq_nil_iff]
            intro q hq
            have := hall q hq
            simp only [decide_eq_true_eq]
            omega
          rw [hfilt]
          rfl
        have hlast : ([n] : List Nat).filterMap (fun Lo =>
            if multAt (cs2 ++ [p]) Lo = 0 then none
            else some (multAt (cs2 ++ [p]) Lo, Lo)) = [] := by
          show List.filterMap _ (n :: []) = []
          rw [List.filterMap_cons, List.filterMap_nil, hmultn0]
          rfl
        rw [hlast, List.append_nil]
        exact ih (cs2 ++ [p]) hchain hpos hall

theorem pairContribs_scalar_right (rs : RsList) :
    pairContribs rs [(1, 0)] = rs := by
  unfold pairContribs
  have hstep : ∀ p : Nat × Nat,
      ([((1 : Nat), (0 : Nat))]).flatMap (fun q =>
        (outDegrees p.2 q.2).map (fun Lo => (p.1 * q.1, Lo))) = [p] := by
    intro p
    rw [List.flatMap_cons, List.flatMap_nil, List.append_nil]
    show (outDegrees p.2 0).map _ = _
    rw [outDegrees_zero_right]
    show [(p.1 * 1, p.2)] = [p]
    rw [Nat.mul_one, Prod.mk.eta]
  rw [List.flatMap_congr (fun p _ => hstep p)]
  exact List.flatMap_singleton' rs

theorem tensorRs_scalar_right (rs : RsList)
    (hchain : List.Pairwise (· < ·) (rs.map Prod.snd))
    (hpos : ∀ p ∈ rs, 0 < p.1) :
    tensorRs rs [(1, 0)] = rs := by
  unfold tensorRs maxOutDegree
  rw [pairContribs_scalar_right]
  apply tensorRs_reconstruct _ rs hchain hpos
  intro p hp
  exact Nat.lt_succ_of_le (le_foldr_max _ _ (List.mem_map_of_mem Prod.snd hp))

theorem cgDelta_scalarNormalized : ScalarNormalized cgDelta := by
  constructor
  · intro L j k hj hk
    unfold cgDelta
    rw [if_pos rfl]
    by_cases hjk : j = k <;> simp [hjk]
  · intro L i k hi hk
    unfold cgDelta
    by_cases hL : L = 0
    · subst hL
      have hi0 : i = 0 := by omega
      have hk0 : k = 0 := by omega
      subst hi0
      subst hk0
      simp
    · rw [if_neg hL, if_pos rfl]
      by_cases hik : i = k <;> simp [hik]

end SphTen

namespace SphTen

/-- C3 counterexample: with coupling coefficients satisfying the spec's scalar
normalization, coupling a tensor whose representation list is not sorted by
degree with the scalar-1 tensor reorders the blocks (ascending by output
degree), so the result is not equal to the input tensor. -/
theorem scalar_identity_counterexample :
    ScalarNormalized cgDelta ∧
    matmulST cgDelta ⟨[1, 0, 0, 2], [(1, 1), (1, 0)]⟩ scalarOne ≠
      ⟨[1, 0, 0, 2], [(1, 1), (1, 0)]⟩ := by
  refine ⟨cgDelta_scalarNormalized, fun h => ?_⟩
  have hRs := congrArg SphericalTensor.Rs h
  rw [show (matmulST cgDelta ⟨[1, 0, 0, 2], [(1, 1), (1, 0)]⟩ scalarOne).Rs =
    tensorRs [(1, 1), (1, 0)] [(1, 0)] from rfl] at hRs
  exact absurd hRs (by decide)

/-- C3 (amended): coupling a tensor whose representation list is canonical
(degrees strictly increasing, multiplicities positive) and whose signal length
matches its representation list with the scalar (`L = 0`) tensor holding
value 1 yields a tensor equal to the input, for every choice of coupling
coefficients satisfying the spec's scalar normalization.  For non-canonical
representation lists the coupled output instead carries the blocks reordered
ascending by degree with equal degrees merged. -/
theorem scalar_identity_amended (cg : CG) (hcg : ScalarNormalized cg)
    (t : SphericalTensor) (hc : canonical t.Rs)
    (hw : t.signal.length = rsCount t.Rs) :
    matmulST cg t scalarOne = t := by
  obtain ⟨hchain, hpos⟩ := hc
  have hlen : t.signal.length =
      ((expandRs t.Rs).map (fun l => 2 * l + 1)).sum := by
    rw [hw]
    exact (rsCount_expand t.Rs).symm
  have hcouple : coupleBlocks cg (splitBlocks (expandRs t.Rs) t.signal)
      [(0, [(1 : ℚ)])] = splitBlocks (expandRs t.Rs) t.signal := by
    rw [coupleBlocks_scalar_right]
    have hid : ∀ x ∈ splitBlocks (expandRs t.Rs) t.signal,
        (x.1, contract cg x.1 0 x.1 x.2 [1]) = id x := by
      intro x hx
      have hxlen := splitBlocks_block_length _ _ hlen x hx
      rw [contract_scalar_right cg hcg.2 x.1 x.2 hxlen]
      simp
    rw [List.map_congr_left hid, List.map_id]
  have hpairwise : List.Pairwise (fun x y : Nat × List ℚ => x.1 ≤ y.1)
      (splitBlocks (expandRs t.Rs) t.signal) := by
    have hexp := expandRs_sorted t.Rs hchain
    rw [← splitBlocks_map_fst (expandRs t.Rs) t.signal] at hexp
    exact (List.pairwise_map).mp hexp
  have hsort := sortBlocks_of_sorted _ hpairwise
  have hsig := splitBlocks_flatMap_snd (expandRs t.Rs) t.signal hlen
  have hrs := tensorRs_scalar_right t.Rs hchain hpos
  show (⟨(sortBlocks (coupleBlocks cg (splitBlocks (expandRs t.Rs) t.signal)
      [(0, [(1 : ℚ)])])).flatMap Prod.snd,
    tensorRs t.Rs [(1, 0)]⟩ : SphericalTensor) = t
  rw [hcouple, hsort, hsig, hrs]

theorem scalar_identity_amended_witness :
    matmulST cgDelta ⟨[2, 3, 4, 5], [(1, 0), (1, 1)]⟩ scalarOne =
      ⟨[2, 3, 4, 5], [(1, 0), (1, 1)]⟩ :=
  scalar_identity_amended cgDelta cgDelta_scalarNormalized
    ⟨[2, 3, 4, 5], [(1, 0), (1, 1)]⟩ ⟨by decide, by decide⟩ (by decide)

end SphTen
